import Mathlib

/-!
Shallow embedding of the document-reconstruction and entity-normalization
pipeline of the `.eleventy.js` build configuration (document grouping,
date/type/doc-number normalization, entity canonicalization and index
building), together with proofs of the specified properties.

Modelling conventions, used throughout:
* JavaScript strings are Lean `String`s, manipulated as `List Char`
  (`String.data`).  The code's inputs are ASCII identifiers, dates and
  names; `toLowerCase` is modelled on the ASCII range (Lean's
  `Char.toLower`), which agrees with JavaScript there.
* A JS value that may be `undefined`/`null` is an `Option`; JS truthiness
  on strings ("" is the only falsy string) is made explicit at each use.
* JS `Array.prototype.sort` is a stable sort given a consistent
  comparator; it is modelled by insertion sort (`sortByB`), which is
  stable and agrees with every stable sort for a total preorder.
* JS `Map` accumulation (`if (!m.has(k)) m.set(k, []); m.get(k).push(x)`)
  preserves first-insertion key order and per-key insertion order; it is
  modelled by an association list with `insertAssoc`.
* JS `Set` keeps first occurrences in insertion order; it is modelled by
  `dedupFirst`.
-/

namespace EpsteinDocs

/-! ### Generic list helpers -/

/-- First-occurrence deduplication, as performed by a JS `Set` built by
iterating a list in order (`[...new Set(l)]`). -/
def dedupFirst {α : Type} [DecidableEq α] : List α → List α
  | [] => []
  | a :: l => a :: (dedupFirst l).filter (fun b => !(b == a))

/-- Lookup in a JS object modelled as an association list
(first binding wins; JSON objects have distinct keys). -/
def lookupJs {β : Type} (m : List (String × β)) (k : String) : Option β :=
  (m.find? (fun e => e.1 == k)).map (·.2)

/-- JS `x || d` specialised to an optional string `x`: the default is
taken when `x` is `undefined`/`null` or the empty string (falsy). -/
def jsOr (o : Option String) (d : String) : String :=
  match o with
  | some s => if s = "" then d else s
  | none => d

/-! ### Character classes and basic string transforms -/

/-- ASCII decimal digit (regex `\d`). -/
def isDigitC (c : Char) : Bool := decide ('0' ≤ c ∧ c ≤ '9')

/-- Regex `\w`: ASCII letters, digits and underscore. -/
def isWordC (c : Char) : Bool :=
  decide (('a' ≤ c ∧ c ≤ 'z') ∨ ('A' ≤ c ∧ c ≤ 'Z') ∨ ('0' ≤ c ∧ c ≤ '9') ∨ c = '_')

/-- Whitespace, for JS `trim`, `parseInt` skipping and regex `\s`
(modelled on the ASCII whitespace characters). -/
def isSpaceC (c : Char) : Bool :=
  decide (c = ' ' ∨ c = '\t' ∨ c = '\n' ∨ c = '\r' ∨ c = '\x0b' ∨ c = '\x0c')

/-- `String.prototype.trim`: drop whitespace from both ends. -/
def jsTrimL (cs : List Char) : List Char :=
  ((cs.dropWhile isSpaceC).reverse.dropWhile isSpaceC).reverse

/-- `trim` on `String`. -/
def trimStr (s : String) : String := String.mk (jsTrimL s.data)

/-- ASCII `toLowerCase` on a character list. -/
def lowerL (cs : List Char) : List Char := cs.map Char.toLower

/-- ASCII `toLowerCase` on a `String`. -/
def lowerStr (s : String) : String := String.mk (lowerL s.data)

/-! ### Document-number normalization (`normalizeDocNum`) -/

/-- Character allowed to survive the `[^a-z0-9-]` replacement (the input
is already lowercased at that point). -/
def isDocKeyC (c : Char) : Bool :=
  decide (('a' ≤ c ∧ c ≤ 'z') ∨ ('0' ≤ c ∧ c ≤ '9') ∨ c = '-')

/-- `.replace(/[^a-z0-9-]/g, '-')`. -/
def replaceBad (cs : List Char) : List Char :=
  cs.map (fun c => if isDocKeyC c then c else '-')

/-- Collapse runs of hyphens to a single hyphen (the source's second
`replace`, with pattern "-+" and replacement "-"). -/
def collapseHyphens : List Char → List Char
  | [] => []
  | c :: cs =>
    match collapseHyphens cs with
    | [] => [c]
    | d :: ds => if c = '-' ∧ d = '-' then d :: ds else c :: d :: ds

/-- Drop leading and trailing hyphens (the source's third `replace`,
with pattern "^-+|-+$" and empty replacement). -/
def trimHyphens (cs : List Char) : List Char :=
  ((cs.dropWhile (fun c => c == '-')).reverse.dropWhile (fun c => c == '-')).reverse

/-- The body of `normalizeDocNum` on a (truthy) string: lowercase,
punctuation to hyphens, collapse hyphen runs, trim hyphens. -/
def normalizeDocNumStr (s : String) : String :=
  String.mk (trimHyphens (collapseHyphens (replaceBad (lowerL s.data))))

/-- `normalizeDocNum`: `null` for a falsy argument, else the normalized
string. -/
def normalizeDocNum (s : String) : Option String :=
  if s = "" then none else some (normalizeDocNumStr s)

/-! ### `parseInt` (as used for page-number sort keys) -/

/-- Hexadecimal digit, for `parseInt`'s `0x` prefix handling. -/
def isHexC (c : Char) : Bool :=
  isDigitC c || decide (('a' ≤ c ∧ c ≤ 'f') ∨ ('A' ≤ c ∧ c ≤ 'F'))

/-- Numeric value of a (hex) digit character. -/
def hexVal (c : Char) : Nat :=
  if isDigitC c then c.toNat - '0'.toNat
  else if decide ('a' ≤ c ∧ c ≤ 'f') then c.toNat - 'a'.toNat + 10
  else c.toNat - 'A'.toNat + 10

/-- Value of a digit string in the given base. -/
def digitsVal (base : Nat) (cs : List Char) : Nat :=
  cs.foldl (fun a c => base * a + hexVal c) 0

/-- JS `parseInt` on a string (no radix argument): skip leading
whitespace, optional sign, then either a `0x`-prefixed hexadecimal
prefix or a decimal-digit prefix; `none` models `NaN` (no digits).
Trailing non-digit characters are ignored.  JS number precision loss
above 2^53 is not modelled; page numbers are far below it. -/
def jsParseInt (s : String) : Option Int :=
  let cs0 := s.data.dropWhile isSpaceC
  let signed : Int × List Char :=
    match cs0 with
    | '-' :: rest => (-1, rest)
    | '+' :: rest => (1, rest)
    | _ => (1, cs0)
  match signed.2 with
  | '0' :: x :: rest =>
    if x = 'x' ∨ x = 'X' then
      let ds := rest.takeWhile isHexC
      if ds = [] then none else some (signed.1 * (digitsVal 16 ds : Nat))
    else
      some (signed.1 * (digitsVal 10 (('0' :: x :: rest).takeWhile isDigitC) : Nat))
  | cs =>
    let ds := cs.takeWhile isDigitC
    if ds = [] then none else some (signed.1 * (digitsVal 10 ds : Nat))

/-! ### Greedy regex matching for the date patterns

The four date regexes are anchored sequences of character-class
quantifiers (`\w+`, `\s+`, `\d` with bounds, an optional comma, a
slash-or-dot separator).  `tokMatchF` implements exact greedy matching
with backtracking for such patterns, structurally recursive on a fuel
argument.  `matchFuel` is far larger than the longest possible chain of
recursive calls (one step per token plus one per candidate length per
token), so the fuel never runs out on any input. -/

structure Tok where
  pred : Char → Bool
  lo : Nat
  hi : Option Nat
  capture : Bool

/-- Length of the longest prefix satisfying `p`. -/
def runLen (p : Char → Bool) : List Char → Nat
  | [] => 0
  | c :: cs => if p c then runLen p cs + 1 else 0

/-- Longest candidate length for a token at the current position. -/
def startLen (t : Tok) (s : List Char) : Nat :=
  Nat.min (runLen t.pred s) (t.hi.getD (runLen t.pred s))

mutual

/-- Match an anchored token sequence against the whole of `s`, returning
the captured groups; greedy with backtracking. -/
def tokMatchF : Nat → List Tok → List Char → Option (List (List Char))
  | 0, _, _ => none
  | _ + 1, [], s => if s = [] then some [] else none
  | fuel + 1, t :: ts, s => tokTryF fuel t ts s (startLen t s)

/-- Try candidate lengths for the head token, longest first. -/
def tokTryF : Nat → Tok → List Tok → List Char → Nat → Option (List (List Char))
  | 0, _, _, _, _ => none
  | fuel + 1, t, ts, s, n =>
    if n < t.lo then none
    else
      match tokMatchF fuel ts (s.drop n) with
      | some gs => some (if t.capture then s.take n :: gs else gs)
      | none =>
        match n with
        | 0 => none
        | m + 1 => tokTryF fuel t ts s m

end

/-- Fuel bound sufficient for `tokMatchF` on the given pattern and
input. -/
def matchFuel (ts : List Tok) (s : List Char) : Nat :=
  (ts.length + 2) * (s.length + 2)

/-- Run an anchored pattern against a string, producing captures. -/
def runPattern (ts : List Tok) (s : List Char) : Option (List (List Char)) :=
  tokMatchF (matchFuel ts s) ts s

/-! ### Date normalization (`normalizeDate`) -/

/-- The case-insensitive month-name table of `normalizeDate`. -/
def monthsTable : List (String × String) :=
  [("jan", "01"), ("january", "01"),
   ("feb", "02"), ("february", "02"),
   ("mar", "03"), ("march", "03"),
   ("apr", "04"), ("april", "04"),
   ("may", "05"),
   ("jun", "06"), ("june", "06"),
   ("jul", "07"), ("july", "07"),
   ("aug", "08"), ("august", "08"),
   ("sep", "09"), ("september", "09"),
   ("oct", "10"), ("october", "10"),
   ("nov", "11"), ("november", "11"),
   ("dec", "12"), ("december", "12")]

/-- `padStart(2, '0')`. -/
def pad2 (cs : List Char) : List Char :=
  List.replicate (2 - cs.length) '0' ++ cs

/-- Anchored test for ISO `YYYY-MM-DD`. -/
def isIso : List Char → Bool
  | [a, b, c, d, h1, e, f, h2, g, i] =>
    isDigitC a && isDigitC b && isDigitC c && isDigitC d && (h1 == '-') &&
    isDigitC e && isDigitC f && (h2 == '-') && isDigitC g && isDigitC i
  | _ => false

/-- Anchored test for a bare year `YYYY`. -/
def isYear : List Char → Bool
  | [a, b, c, d] => isDigitC a && isDigitC b && isDigitC c && isDigitC d
  | _ => false

def wsTok : Tok := ⟨isSpaceC, 1, none, false⟩
def wordTokC : Tok := ⟨isWordC, 1, none, true⟩
def d12TokC : Tok := ⟨isDigitC, 1, some 2, true⟩
def d4TokC : Tok := ⟨isDigitC, 4, some 4, true⟩
def commaOptTok : Tok := ⟨fun c => c == ',', 0, some 1, false⟩
def sepTok : Tok := ⟨fun c => c == '/' || c == '.', 1, some 1, false⟩

/-- Pattern for "February 15, 2005" / "Feb 15, 2005". -/
def pattern1 : List Tok := [wordTokC, wsTok, d12TokC, commaOptTok, wsTok, d4TokC]

/-- Pattern for "15 February 2005" / "15 Feb 2005". -/
def pattern2 : List Tok := [d12TokC, wsTok, wordTokC, wsTok, d4TokC]

/-- Pattern for "2005/02/15" or "2005.02.15". -/
def pattern3 : List Tok := [d4TokC, sepTok, d12TokC, sepTok, d12TokC]

/-- Pattern for "02/15/2005" or "02.15.2005" (US convention). -/
def pattern4 : List Tok := [d12TokC, sepTok, d12TokC, sepTok, d4TokC]

/-- First format branch: month-name first.  `none` both when the regex
fails and when the month-name lookup fails (the source then falls
through to the next format). -/
def runMatch1 (cs : List Char) : Option (List Char) :=
  match runPattern pattern1 cs with
  | some [g1, g2, g3] =>
    match lookupJs monthsTable (String.mk (lowerL g1)) with
    | some m => some (g3 ++ '-' :: m.data ++ '-' :: pad2 g2)
    | none => none
  | _ => none

/-- Second format branch: day first, then month name. -/
def runMatch2 (cs : List Char) : Option (List Char) :=
  match runPattern pattern2 cs with
  | some [g1, g2, g3] =>
    match lookupJs monthsTable (String.mk (lowerL g2)) with
    | some m => some (g3 ++ '-' :: m.data ++ '-' :: pad2 g1)
    | none => none
  | _ => none

/-- Third format branch: year/month/day with slash or dot separators. -/
def runMatch3 (cs : List Char) : Option (List Char) :=
  match runPattern pattern3 cs with
  | some [g1, g2, g3] => some (g1 ++ '-' :: pad2 g2 ++ '-' :: pad2 g3)
  | _ => none

/-- Fourth format branch: month/day/year (US convention). -/
def runMatch4 (cs : List Char) : Option (List Char) :=
  match runPattern pattern4 cs with
  | some [g1, g2, g3] => some (g3 ++ '-' :: pad2 g1 ++ '-' :: pad2 g2)
  | _ => none

/-- The format cascade of `normalizeDate`, applied to the trimmed
string; falls back to returning its argument unchanged. -/
def normalizeDateCore (cs : List Char) : List Char :=
  if isIso cs then cs
  else if isYear cs then cs ++ "-00-00".data
  else
    match runMatch1 cs with
    | some r => r
    | none =>
      match runMatch2 cs with
      | some r => r
      | none =>
        match runMatch3 cs with
        | some r => r
        | none =>
          match runMatch4 cs with
          | some r => r
          | none => cs

/-- `normalizeDate`: `null` for a falsy argument, otherwise the cascade
applied to the trimmed string. -/
def normalizeDate (s : String) : Option String :=
  if s = "" then none else some (String.mk (normalizeDateCore (jsTrimL s.data)))

/-- `true` when the trimmed string matches one of the recognized date
formats (including a successful month-name lookup where the format
requires one). -/
def recognizedDate (cs : List Char) : Bool :=
  isIso cs || isYear cs || (runMatch1 cs).isSome || (runMatch2 cs).isSome ||
    (runMatch3 cs).isSome || (runMatch4 cs).isSome

/-! ### Date display formatting (`formatDate`) -/

/-- The display month table (index 1 to 12). -/
def monthNames : List String :=
  ["", "January", "February", "March", "April", "May", "June",
   "July", "August", "September", "October", "November", "December"]

/-- `formatDate`: "Unknown Date" for a falsy argument; a bare year for a
`YYYY-00-00` sentinel; `"Month D, YYYY"` for a full ISO date with a
month between 1 and 12; anything else passes through. -/
def formatDate (s : String) : String :=
  if s = "" then "Unknown Date"
  else if List.isSuffixOf "-00-00".data s.data then String.mk (s.data.take 4)
  else
    match s.data with
    | [y1, y2, y3, y4, h1, m1, m2, h2, d1, d2] =>
      if isDigitC y1 && isDigitC y2 && isDigitC y3 && isDigitC y4 && (h1 == '-') &&
          isDigitC m1 && isDigitC m2 && (h2 == '-') && isDigitC d1 && isDigitC d2 then
        let month := digitsVal 10 [m1, m2]
        let day := digitsVal 10 [d1, d2]
        if 0 < month ∧ month ≤ 12 then
          (monthNames.getD month "") ++ " " ++ toString day ++ ", " ++ String.mk [y1, y2, y3, y4]
        else s
      else s
    | _ => s

/-! ### Document-type normalization and formatting -/

/-- `normalizeDocType`: `null` for falsy input; otherwise trim, apply
the type mapping (with falsy fallback), lowercase and trim again. -/
def normalizeDocType (tm : List (String × String)) (docType : String) : Option String :=
  if docType = "" then none
  else
    let trimmed := trimStr docType
    let canonical := jsOr (lookupJs tm trimmed) trimmed
    some (trimStr (lowerStr canonical))

/-- `formatDocType`: "Unknown" for falsy input; otherwise the mapped
canonical display string (with falsy fallback to the trimmed input). -/
def formatDocType (tm : List (String × String)) (docType : String) : String :=
  if docType = "" then "Unknown"
  else
    let trimmed := trimStr docType
    jsOr (lookupJs tm trimmed) trimmed

/-! ### Data model

A `Page` is one loaded OCR record: provenance (`filename`), the optional
raw metadata strings the pipeline reads, the per-category raw entity
lists (an absent `entities` object or category array contributes
nothing, exactly like an empty list, so both are modelled as `[]`) and
the extracted text.  The `path`/`folder` provenance strings, which the
grouping, sorting, entity and index logic never reads, are omitted from
the embedding. -/

structure Page where
  filename : String
  document_number : Option String
  page_number : Option String
  document_type : Option String
  date : Option String
  people : List String
  organizations : List String
  locations : List String
  dates : List String
  reference_numbers : List String
  full_text : String
deriving DecidableEq, Repr

/-- The three entity-deduplication mappings of `dedupe.json`
(`{ people: {}, organizations: {}, locations: {} }` when the file is
missing). -/
structure DedupeMaps where
  people : List (String × String)
  organizations : List (String × String)
  locations : List (String × String)
deriving DecidableEq, Repr

/-- The empty (missing-file) deduplication mappings. -/
def emptyMaps : DedupeMaps := ⟨[], [], []⟩

/-- Entity category handled by `applyDedupe`. -/
inductive EntityCategory
  | people
  | organizations
  | locations
deriving DecidableEq, Repr

/-- The mapping for a category (`dedupeMappings[entityType]`). -/
def catMap (dm : DedupeMaps) : EntityCategory → List (String × String)
  | .people => dm.people
  | .organizations => dm.organizations
  | .locations => dm.locations

/-- `applyDedupe(entityType, entityName)`: falsy names pass through; a
found mapping value is used only when itself truthy, else the raw name
is returned. -/
def applyDedupe (dm : DedupeMaps) (cat : EntityCategory) (entityName : String) : String :=
  if entityName = "" then entityName
  else jsOr (lookupJs (catMap dm cat) entityName) entityName

/-- A reconstructed document, as produced by `getDocuments`. -/
structure Doc where
  unique_id : String
  document_number : String
  raw_document_numbers : List String
  pages : List Page
  page_count : Nat
  document_type : Option String
  meta_date : Option String
  people : List String
  organizations : List String
  locations : List String
  dates : List String
  reference_numbers : List String
  full_text : String
deriving DecidableEq, Repr

/-! ### Grouping pages into documents -/

/-- Fallback grouping key for a page with no (truthy) document number:
`normalizeDocNum(page.filename) || page.filename`. -/
def fallbackKey (p : Page) : String :=
  jsOr (normalizeDocNum p.filename) p.filename

/-- The grouping key `documentMap` files a page under. -/
def groupKey (p : Page) : String :=
  match p.document_number with
  | some raw => if raw = "" then fallbackKey p else normalizeDocNumStr raw
  | none => fallbackKey p

/-- One step of the JS `Map` accumulation idiom: append the value to the
existing bucket for `k`, else add a new `(k, [b])` entry at the end. -/
def insertAssoc {β : Type} (m : List (String × List β)) (k : String) (b : β) :
    List (String × List β) :=
  match m with
  | [] => [(k, [b])]
  | (k', l) :: rest => if k' = k then (k', l ++ [b]) :: rest else (k', l) :: insertAssoc rest k b

/-- The `documentMap` accumulation loop over the loaded pages. -/
def documentMapAux (m : List (String × List Page)) : List Page → List (String × List Page)
  | [] => m
  | p :: ps => documentMapAux (insertAssoc m (groupKey p) p) ps

/-- `documentMap`: pages grouped by normalized document number (with the
filename fallback), as an association list in first-insertion order. -/
def documentMap (ps : List Page) : List (String × List Page) :=
  documentMapAux [] ps

/-! ### Sorting (JS stable `sort` with a consistent comparator) -/

/-- Insert `a` before the first element `b` with `r a b` (stable
insertion for a total preorder from the left). -/
def ordInsertB {α : Type} (r : α → α → Bool) (a : α) : List α → List α
  | [] => [a]
  | b :: l => if r a b then a :: b :: l else b :: ordInsertB r a l

/-- Stable insertion sort; models `Array.prototype.sort` with a
consistent comparator (`r a b` meaning "a need not come after b"). -/
def sortByB {α : Type} (r : α → α → Bool) : List α → List α
  | [] => []
  | a :: l => ordInsertB r a (sortByB r l)

/-- The page sort key `parseInt(page_number) || 0` (absent and
non-numeric page numbers both collapse to 0, as does an explicit 0). -/
def pageSortKey (p : Page) : Int :=
  match p.page_number with
  | some s => (jsParseInt s).getD 0
  | none => 0

/-- `docPages.sort((a, b) => pageA - pageB)`. -/
def sortPages (l : List Page) : List Page :=
  sortByB (fun a b => decide (pageSortKey a ≤ pageSortKey b)) l

/-! ### Assembling one document from a page bucket -/

/-- The canonical-then-dedup display value for a document's date entity:
`normalized ? formatDate(normalized) : d`. -/
def displayDateEntity (d : String) : String :=
  match normalizeDate d with
  | some n => if n = "" then d else formatDate n
  | none => d

/-- Build one `Doc` from a `documentMap` entry (the body of the
`documents` map over `documentMap.entries()`). -/
def mkDoc (dm : DedupeMaps) (tm : List (String × String)) (k : String) (bucket : List Page) :
    Doc :=
  let docPages := sortPages bucket
  let rawDocNums := dedupFirst (docPages.filterMap (fun p =>
    match p.document_number with
    | some s => if s = "" then none else some s
    | none => none))
  let uPeople := dedupFirst (docPages.flatMap (·.people))
  let uOrgs := dedupFirst (docPages.flatMap (·.organizations))
  let uLocs := dedupFirst (docPages.flatMap (·.locations))
  let uDates := dedupFirst (docPages.flatMap (·.dates))
  let uRefs := dedupFirst (docPages.flatMap (·.reference_numbers))
  let firstPage := docPages.head?
  { unique_id := k
    document_number := match rawDocNums with
      | [single] => single
      | _ => k
    raw_document_numbers := rawDocNums
    pages := docPages
    page_count := docPages.length
    document_type := match firstPage with
      | some fp =>
        match fp.document_type with
        | some t => if t = "" then none else some (formatDocType tm t)
        | none => none
      | none => none
    meta_date := match firstPage with
      | some fp =>
        match fp.date with
        | some d => if d = "" then some d else some (formatDate ((normalizeDate d).getD ""))
        | none => none
      | none => none
    people := dedupFirst (uPeople.map (applyDedupe dm .people))
    organizations := dedupFirst (uOrgs.map (applyDedupe dm .organizations))
    locations := dedupFirst (uLocs.map (applyDedupe dm .locations))
    dates := dedupFirst (uDates.map displayDateEntity)
    reference_numbers := uRefs
    full_text := String.intercalate "\n\n--- PAGE BREAK ---\n\n" (docPages.map (·.full_text)) }

/-- `getDocuments` after page loading: group, sort and consolidate. -/
def assembleDocuments (dm : DedupeMaps) (tm : List (String × String)) (ps : List Page) :
    List Doc :=
  (documentMap ps).map (fun e => mkDoc dm tm e.1 e.2)

/-! ### Index building -/

/-- An index bucket `{ name, docs, count }`. -/
structure Bucket where
  name : String
  docs : List Doc
  count : Nat
deriving DecidableEq, Repr

/-- A date index bucket `{ name, normalizedDate, docs, count }`. -/
structure DateBucket where
  name : String
  normalizedDate : String
  docs : List Doc
  count : Nat
deriving DecidableEq, Repr

/-- Push one document under each of its keys for one index
(`forEach` over the entity values of one document). -/
def pushKeys (m : List (String × List Doc)) (ks : List String) (d : Doc) :
    List (String × List Doc) :=
  ks.foldl (fun m k => insertAssoc m k d) m

/-- The accumulation loop of one index over all documents. -/
def indexAux (f : Doc → List String) (m : List (String × List Doc)) :
    List Doc → List (String × List Doc)
  | [] => m
  | d :: ds => indexAux f (pushKeys m (f d) d) ds

/-- One index `Map`, keyed by `f` (the per-document key list), as an
association list in first-insertion order. -/
def indexMap (f : Doc → List String) (docs : List Doc) : List (String × List Doc) :=
  indexAux f [] docs

/-- The canonical people keys one document contributes. -/
def peopleKeys (dm : DedupeMaps) (d : Doc) : List String :=
  d.people.map (applyDedupe dm .people)

/-- The canonical organization keys one document contributes. -/
def orgKeys (dm : DedupeMaps) (d : Doc) : List String :=
  d.organizations.map (applyDedupe dm .organizations)

/-- The canonical location keys one document contributes. -/
def locKeys (dm : DedupeMaps) (d : Doc) : List String :=
  d.locations.map (applyDedupe dm .locations)

/-- The normalized date keys one document contributes: falsy
normalizations are skipped (`if (normalized)`). -/
def dateKeys (d : Doc) : List String :=
  d.dates.filterMap (fun date =>
    match normalizeDate date with
    | some n => if n = "" then none else some n
    | none => none)

/-- The normalized document-type keys one document contributes
(both the outer `if (docType)` and inner `if (normalized)` guards). -/
def typeKeys (tm : List (String × String)) (d : Doc) : List String :=
  match d.document_type with
  | some t =>
    if t = "" then []
    else
      match normalizeDocType tm t with
      | some n => if n = "" then [] else [n]
      | none => []
  | none => []

/-- `dedupeDocArray`: keep the first occurrence of each `unique_id`. -/
def dedupeDocAux (seen : List String) : List Doc → List Doc
  | [] => []
  | d :: ds =>
    if d.unique_id ∈ seen then dedupeDocAux seen ds
    else d :: dedupeDocAux (d.unique_id :: seen) ds

/-- `dedupeDocArray` with an initially empty `seen` set. -/
def dedupeDocArray (docs : List Doc) : List Doc :=
  dedupeDocAux [] docs

/-- Lexicographic (code-point) string order; models `localeCompare` on
the ASCII `YYYY-MM-DD` keys it is applied to. -/
def strLeB : List Char → List Char → Bool
  | [], _ => true
  | _ :: _, [] => false
  | a :: as, b :: bs =>
    if a.toNat < b.toNat then true
    else if b.toNat < a.toNat then false
    else strLeB as bs

/-- `a.localeCompare(b) <= 0` on strings. -/
def strLe (a b : String) : Bool := strLeB a.data b.data

/-- Build a `{name, docs, count}` bucket from one map entry. -/
def mkBucket (e : String × List Doc) : Bucket :=
  ⟨e.1, dedupeDocArray e.2, (dedupeDocArray e.2).length⟩

/-- Build a dates bucket from one map entry (display name plus the
normalized key kept for sorting). -/
def mkDateBucket (e : String × List Doc) : DateBucket :=
  ⟨formatDate e.1, e.1, dedupeDocArray e.2, (dedupeDocArray e.2).length⟩

/-- Build a document-type bucket from one map entry. -/
def mkTypeBucket (tm : List (String × String)) (e : String × List Doc) : Bucket :=
  ⟨formatDocType tm e.1, dedupeDocArray e.2, (dedupeDocArray e.2).length⟩

/-- `sort((a, b) => b.count - a.count)`: stable descending count. -/
def sortByCountDesc (l : List Bucket) : List Bucket :=
  sortByB (fun a b => decide (b.count ≤ a.count)) l

/-- `sort((a, b) => b.normalizedDate.localeCompare(a.normalizedDate))`:
stable descending normalized date. -/
def sortByDateDesc (l : List DateBucket) : List DateBucket :=
  sortByB (fun a b => strLe b.normalizedDate a.normalizedDate) l

/-- The five exposed indices. -/
structure Indices where
  people : List Bucket
  organizations : List Bucket
  locations : List Bucket
  dates : List DateBucket
  documentTypes : List Bucket
deriving Repr

/-- The `indices` global data: one accumulation pass over the documents
per bucket map (the source interleaves the five maps in a single pass,
which accumulates identically), then dedup, count and sort. -/
def buildIndices (dm : DedupeMaps) (tm : List (String × String)) (docs : List Doc) : Indices :=
  { people := sortByCountDesc ((indexMap (peopleKeys dm) docs).map mkBucket)
    organizations := sortByCountDesc ((indexMap (orgKeys dm) docs).map mkBucket)
    locations := sortByCountDesc ((indexMap (locKeys dm) docs).map mkBucket)
    dates := sortByDateDesc ((indexMap dateKeys docs).map mkDateBucket)
    documentTypes := sortByCountDesc ((indexMap (typeKeys tm) docs).map (mkTypeBucket tm)) }

/-- Declarative form of `documentMap`: the distinct group keys in
first-occurrence order, each paired with the pages bearing that key in
input order. -/
def groupedBy (ps : List Page) : List (String × List Page) :=
  (dedupFirst (ps.map groupKey)).map (fun k => (k, ps.filter (fun q => groupKey q == k)))

/-! ### Concrete records used by the verification scenarios -/

/-- A page with every optional field absent and every list empty. -/
def basePage : Page :=
  { filename := "", document_number := none, page_number := none, document_type := none,
    date := none, people := [], organizations := [], locations := [], dates := [],
    reference_numbers := [], full_text := "" }

/-- A document with every optional field absent and every list empty. -/
def baseDoc : Doc :=
  { unique_id := "", document_number := "", raw_document_numbers := [], pages := [],
    page_count := 0, document_type := none, meta_date := none, people := [],
    organizations := [], locations := [], dates := [], reference_numbers := [],
    full_text := "" }

/-- An empty index bucket. -/
def baseBucket : Bucket := ⟨"", [], 0⟩

/-- An empty date index bucket. -/
def baseDateBucket : DateBucket := ⟨"", "", [], 0⟩

/-- Scenario page: raw people list with two spellings of one person. -/
def exPageJE : Page :=
  { basePage with filename := "je", document_number := some "X",
                  people := ["J. Epstein", "Jeffrey Epstein"] }

/-- Scenario dedupe mapping collapsing "J. Epstein". -/
def exMapsJE : DedupeMaps := ⟨[("J. Epstein", "Jeffrey Epstein")], [], []⟩

/-- Scenario page: document "d1", page number "2". -/
def exPageSortA : Page :=
  { basePage with filename := "a", document_number := some "d1", page_number := some "2" }

/-- Scenario page: document "d1", page number "1". -/
def exPageSortB : Page :=
  { basePage with filename := "b", document_number := some "d1", page_number := some "1" }

/-- Scenario document whose date entities are all empty strings. -/
def exDocEmptyDates : Doc :=
  { baseDoc with unique_id := "bad", dates := ["", ""] }

/-- Scenario document with a 2024 date entity. -/
def exDocMay : Doc :=
  { baseDoc with unique_id := "may", dates := ["2024-05-01"] }

/-- Scenario document with a 2023 date entity. -/
def exDocNov : Doc :=
  { baseDoc with unique_id := "nov", dates := ["2023-11-02"] }

/-- Scenario document with one person entity. -/
def exDocPeople : Doc :=
  { baseDoc with unique_id := "u", people := ["P"] }

/-! ## Lemmas about the generic helpers -/

theorem mem_dedupFirst {α : Type} [DecidableEq α] {a : α} :
    ∀ {l : List α}, a ∈ dedupFirst l ↔ a ∈ l := by
  intro l
  induction l with
  | nil => simp [dedupFirst]
  | cons b l ih =>
    by_cases hab : a = b <;> simp [dedupFirst, List.mem_filter, ih, hab]

theorem nodup_dedupFirst {α : Type} [DecidableEq α] : ∀ l : List α, (dedupFirst l).Nodup := by
  intro l
  induction l with
  | nil => simp [dedupFirst]
  | cons b l ih =>
    refine List.Nodup.cons ?_ (ih.filter _)
    intro hmem
    simp [List.mem_filter] at hmem

theorem toFinset_dedupFirst {α : Type} [DecidableEq α] (l : List α) :
    (dedupFirst l).toFinset = l.toFinset := by
  ext a
  simp [List.mem_toFinset, mem_dedupFirst]

theorem dedupFirst_append_singleton {α : Type} [DecidableEq α] (a : α) :
    ∀ l : List α,
      dedupFirst (l ++ [a]) = if a ∈ l then dedupFirst l else dedupFirst l ++ [a] := by
  intro l
  induction l with
  | nil => simp [dedupFirst]
  | cons b l ih =>
    by_cases hal : a ∈ l
    · simp [dedupFirst, ih, hal]
    · by_cases hab : a = b
      · subst hab
        simp [dedupFirst, ih, hal, List.filter_append]
      · simp [dedupFirst, ih, hal, hab, List.filter_append, Ne.symm hab]

theorem mem_insertAssoc_inv {β : Type} {k k' : String} {l : List β} {b : β} :
    ∀ {m : List (String × List β)}, (k, l) ∈ insertAssoc m k' b →
      (k, l) ∈ m ∨ (∃ l₀, (k, l₀) ∈ m ∧ k = k' ∧ l = l₀ ++ [b]) ∨ (k = k' ∧ l = [b]) := by
  intro m
  induction m with
  | nil =>
    intro h
    simp [insertAssoc] at h
    exact Or.inr (Or.inr ⟨h.1, h.2⟩)
  | cons e rest ih =>
    intro h
    obtain ⟨k₀, l₀⟩ := e
    by_cases hk : k₀ = k'
    · simp [insertAssoc, hk] at h
      rcases h with ⟨hkk, hll⟩ | hrest
      · exact Or.inr (Or.inl ⟨l₀, by simp [hkk, hk], by simp [hkk, hk], hll⟩)
      · exact Or.inl (List.mem_cons_of_mem _ hrest)
    · simp only [insertAssoc, if_neg hk] at h
      rcases List.mem_cons.mp h with hhead | htail
      · exact Or.inl (by simp [hhead])
      · rcases ih htail with h1 | ⟨l₁, h1, h2, h3⟩ | h1
        · exact Or.inl (List.mem_cons_of_mem _ h1)
        · exact Or.inr (Or.inl ⟨l₁, List.mem_cons_of_mem _ h1, h2, h3⟩)
        · exact Or.inr (Or.inr h1)

theorem insertAssoc_map_mem {β : Type} (F : String → List β) (x : β) {kp : String} :
    ∀ {ks : List String}, ks.Nodup → kp ∈ ks →
      insertAssoc (ks.map fun k => (k, F k)) kp x =
        ks.map (fun k => (k, F k ++ if k = kp then [x] else [])) := by
  intro ks
  induction ks with
  | nil => intro _ h; exact absurd h (List.not_mem_nil kp)
  | cons k₀ ks ih =>
    intro hnd hin
    by_cases hk : k₀ = kp
    · have hnotin : kp ∉ ks := hk ▸ (List.nodup_cons.mp hnd).1
      have htail : ks.map (fun k => (k, F k ++ if k = kp then [x] else [])) =
          ks.map (fun k => (k, F k)) := by
        refine List.map_congr_left ?_
        intro k hkmem
        have hne : k ≠ kp := fun h => hnotin (h ▸ hkmem)
        simp [hne]
      simp [List.map_cons, insertAssoc, hk, htail]
    · have hin' : kp ∈ ks := by
        rcases List.mem_cons.mp hin with h | h
        · exact absurd h.symm hk
        · exact h
      have htail := ih (List.nodup_cons.mp hnd).2 hin'
      simp [List.map_cons, insertAssoc, hk, htail]

theorem insertAssoc_map_notmem {β : Type} (F : String → List β) (x : β) {kp : String} :
    ∀ {ks : List String}, kp ∉ ks →
      insertAssoc (ks.map fun k => (k, F k)) kp x =
        (ks.map fun k => (k, F k)) ++ [(kp, [x])] := by
  intro ks
  induction ks with
  | nil => intro _; simp [insertAssoc]
  | cons k₀ ks ih =>
    intro hnotin
    have hk : k₀ ≠ kp := fun h => hnotin (h ▸ List.mem_cons_self k₀ ks)
    simp only [List.map_cons, insertAssoc, if_neg hk, List.cons_append]
    exact congrArg _ (ih (fun h => hnotin (List.mem_cons_of_mem _ h)))

/-! ## The accumulated `documentMap` equals its declarative form -/

theorem insert_grouped (done : List Page) (p : Page) :
    insertAssoc (groupedBy done) (groupKey p) p = groupedBy (done ++ [p]) := by
  by_cases hin : groupKey p ∈ done.map groupKey
  · have hin' : groupKey p ∈ dedupFirst (done.map groupKey) := mem_dedupFirst.mpr hin
    rw [groupedBy, insertAssoc_map_mem _ _ (nodup_dedupFirst _) hin']
    rw [groupedBy, List.map_append]
    simp only [List.map_cons, List.map_nil]
    rw [dedupFirst_append_singleton, if_pos hin]
    refine List.map_congr_left ?_
    intro k _
    by_cases hk : k = groupKey p
    · simp [hk, List.filter_append, List.filter_cons]
    · simp [hk, List.filter_append, List.filter_cons]
      exact fun h => hk h.symm
  · have hin' : groupKey p ∉ dedupFirst (done.map groupKey) :=
      fun h => hin (mem_dedupFirst.mp h)
    rw [groupedBy, insertAssoc_map_notmem _ _ hin']
    rw [groupedBy, List.map_append]
    simp only [List.map_cons, List.map_nil]
    rw [dedupFirst_append_singleton, if_neg hin, List.map_append]
    refine congrArg₂ _ ?_ ?_
    · refine List.map_congr_left ?_
      intro k hk
      have hne : groupKey p ≠ k := by
        intro h
        exact hin (h ▸ mem_dedupFirst.mp hk)
      simp [List.filter_append, List.filter_cons, hne]
    · have hnil : done.filter (fun q => groupKey q == groupKey p) = [] := by
        refine List.filter_eq_nil_iff.mpr ?_
        intro q hq hbeq
        exact hin (List.mem_map.mpr ⟨q, hq, beq_iff_eq.mp hbeq⟩)
      simp [List.filter_append, List.filter_cons, hnil]

theorem documentMapAux_grouped : ∀ (ps done : List Page),
    documentMapAux (groupedBy done) ps = groupedBy (done ++ ps) := by
  intro ps
  induction ps with
  | nil => intro done; simp [documentMapAux]
  | cons p ps ih =>
    intro done
    rw [documentMapAux, insert_grouped, ih]
    simp

theorem documentMap_eq_grouped (ps : List Page) : documentMap ps = groupedBy ps := by
  have h := documentMapAux_grouped ps []
  simpa [documentMap, groupedBy, dedupFirst] using h

/-! ## Lemmas about the stable sort -/

theorem perm_ordInsertB {α : Type} (r : α → α → Bool) (a : α) :
    ∀ l : List α, List.Perm (ordInsertB r a l) (a :: l) := by
  intro l
  induction l with
  | nil => exact List.Perm.refl _
  | cons b l ih =>
    cases hr : r a b
    · simp only [ordInsertB, hr, Bool.false_eq_true, if_false]
      exact (ih.cons b).trans (List.Perm.swap a b l)
    · simp only [ordInsertB, hr, if_true]
      exact List.Perm.refl _

theorem perm_sortByB {α : Type} (r : α → α → Bool) :
    ∀ l : List α, List.Perm (sortByB r l) l := by
  intro l
  induction l with
  | nil => exact List.Perm.refl _
  | cons a l ih =>
    exact (perm_ordInsertB r a (sortByB r l)).trans (ih.cons a)

theorem mem_ordInsertB {α : Type} {r : α → α → Bool} {a x : α} {l : List α}
    (h : x ∈ ordInsertB r a l) : x = a ∨ x ∈ l := by
  have := (perm_ordInsertB r a l).mem_iff.mp h
  simpa using this

theorem pairwise_ordInsertB {α : Type} {r : α → α → Bool}
    (htot : ∀ a b, r a b = true ∨ r b a = true)
    (htrans : ∀ a b c, r a b = true → r b c = true → r a c = true) (a : α) :
    ∀ {l : List α}, l.Pairwise (fun x y => r x y = true) →
      (ordInsertB r a l).Pairwise (fun x y => r x y = true) := by
  intro l
  induction l with
  | nil => intro _; simp [ordInsertB]
  | cons b l ih =>
    intro hpw
    rcases List.pairwise_cons.mp hpw with ⟨hb, hl⟩
    by_cases h : r a b
    · simp only [ordInsertB, if_pos h]
      refine List.pairwise_cons.mpr ⟨?_, hpw⟩
      intro x hx
      rcases List.mem_cons.mp hx with rfl | hx
      · exact h
      · exact htrans a b x h (hb x hx)
    · simp only [ordInsertB, if_neg h]
      refine List.pairwise_cons.mpr ⟨?_, ih hl⟩
      intro x hx
      rcases mem_ordInsertB hx with rfl | hx
      · rcases htot x b with hxb | hbx
        · exact absurd hxb (by simpa using h)
        · exact hbx
      · exact hb x hx

theorem pairwise_sortByB {α : Type} {r : α → α → Bool}
    (htot : ∀ a b, r a b = true ∨ r b a = true)
    (htrans : ∀ a b c, r a b = true → r b c = true → r a c = true) :
    ∀ l : List α, (sortByB r l).Pairwise (fun x y => r x y = true) := by
  intro l
  induction l with
  | nil => simp [sortByB]
  | cons a l ih => exact pairwise_ordInsertB htot htrans a ih

theorem filter_ordInsert_pageKey (v : Int) (a : Page) :
    ∀ l : List Page,
      (ordInsertB (fun x y => decide (pageSortKey x ≤ pageSortKey y)) a l).filter
          (fun p => pageSortKey p == v) =
        if pageSortKey a == v then
          a :: l.filter (fun p => pageSortKey p == v)
        else l.filter (fun p => pageSortKey p == v) := by
  intro l
  induction l with
  | nil => simp [ordInsertB, List.filter_cons]
  | cons b l ih =>
    cases hr : decide (pageSortKey a ≤ pageSortKey b) with
    | true =>
      simp only [ordInsertB, hr, if_true]
      by_cases hv : pageSortKey a = v <;> simp [List.filter_cons, hv]
    | false =>
      have hlt : pageSortKey b < pageSortKey a := lt_of_not_le (of_decide_eq_false hr)
      simp only [ordInsertB, hr, Bool.false_eq_true, if_false]
      by_cases hv : pageSortKey a = v
      · have hbv : ¬pageSortKey b = v := by omega
        simp [List.filter_cons, hv, hbv, ih]
      · simp [List.filter_cons, hv, ih]

theorem filter_sortPages (v : Int) :
    ∀ l : List Page,
      (sortPages l).filter (fun p => pageSortKey p == v) =
        l.filter (fun p => pageSortKey p == v) := by
  intro l
  induction l with
  | nil => rfl
  | cons a l ih =>
    show (ordInsertB _ a (sortPages l)).filter _ = _
    rw [filter_ordInsert_pageKey, ih]
    by_cases hv : pageSortKey a = v <;> simp [List.filter_cons, hv]

theorem sorted_sortPages (l : List Page) :
    (sortPages l).Pairwise (fun a b => pageSortKey a ≤ pageSortKey b) := by
  have h := pairwise_sortByB (r := fun x y => decide (pageSortKey x ≤ pageSortKey y))
    (fun a b => by
      rcases le_total (pageSortKey a) (pageSortKey b) with h | h
      · exact Or.inl (decide_eq_true h)
      · exact Or.inr (decide_eq_true h))
    (fun a b c hab hbc => decide_eq_true (le_trans (of_decide_eq_true hab) (of_decide_eq_true hbc)))
    l
  exact h.imp (fun hxy => of_decide_eq_true hxy)

/-! ## The group buckets partition the pages -/

theorem sum_split {κ : Type} [DecidableEq κ] (f : κ → Nat) {a : κ} :
    ∀ {D : List κ}, D.Nodup → a ∈ D →
      (D.map f).sum = f a + ((D.filter (fun k => !(k == a))).map f).sum := by
  intro D
  induction D with
  | nil => intro _ h; exact absurd h (List.not_mem_nil a)
  | cons k₀ D ih =>
    intro hnd hin
    rcases List.mem_cons.mp hin with rfl | hin'
    · have hnotin : a ∉ D := (List.nodup_cons.mp hnd).1
      have hfilter : D.filter (fun k => !(k == a)) = D := by
        refine List.filter_eq_self.mpr ?_
        intro x hx
        simp only [Bool.not_eq_true', beq_eq_false_iff_ne]
        exact fun h => hnotin (h ▸ hx)
      simp [List.filter_cons, hfilter]
    · have hne : k₀ ≠ a := by
        intro h
        exact (List.nodup_cons.mp hnd).1 (h ▸ hin')
      have := ih (List.nodup_cons.mp hnd).2 hin'
      simp [List.filter_cons, hne, this]
      omega

theorem sum_filter_lengths {α κ : Type} [DecidableEq κ] (key : α → κ) :
    ∀ ps : List α,
      ((dedupFirst (ps.map key)).map
        (fun k => (ps.filter (fun q => key q == k)).length)).sum = ps.length := by
  intro ps
  induction ps with
  | nil => rfl
  | cons p ps ih =>
    simp only [List.map_cons, dedupFirst]
    rw [List.sum_cons]
    have hhead : ((p :: ps).filter (fun q => key q == key p)).length =
        (ps.filter (fun q => key q == key p)).length + 1 := by
      simp [List.filter_cons]
    have htail : ∀ k, k ≠ key p →
        ((p :: ps).filter (fun q => key q == k)).length =
          (ps.filter (fun q => key q == k)).length := by
      intro k hk
      have : ¬(key p == k) = true := by
        simp only [beq_iff_eq]
        exact fun h => hk h.symm
      simp [List.filter_cons, this]
    have hmapeq : ((dedupFirst (ps.map key)).filter (fun b => !(b == key p))).map
        (fun k => ((p :: ps).filter (fun q => key q == k)).length) =
        ((dedupFirst (ps.map key)).filter (fun b => !(b == key p))).map
        (fun k => (ps.filter (fun q => key q == k)).length) := by
      refine List.map_congr_left ?_
      intro k hk
      have hkne : k ≠ key p := by
        have := (List.mem_filter.mp hk).2
        simpa using this
      exact htail k hkne
    rw [hhead, hmapeq]
    by_cases hin : key p ∈ dedupFirst (ps.map key)
    · have hs := sum_split (fun k => (ps.filter (fun q => key q == k)).length)
        (nodup_dedupFirst (ps.map key)) hin
      simp only [] at hs
      simp only [List.length_cons]
      omega
    · have hnil : ps.filter (fun q => key q == key p) = [] := by
        refine List.filter_eq_nil_iff.mpr ?_
        intro q hq hbeq
        exact hin (mem_dedupFirst.mpr (List.mem_map.mpr ⟨q, hq, beq_iff_eq.mp hbeq⟩))
      have hfilter : (dedupFirst (ps.map key)).filter (fun b => !(b == key p)) =
          dedupFirst (ps.map key) := by
        refine List.filter_eq_self.mpr ?_
        intro x hx
        simp only [Bool.not_eq_true', beq_eq_false_iff_ne]
        exact fun h => hin (h ▸ hx)
      rw [hfilter, hnil]
      simp only [List.length_cons, List.length_nil]
      omega

/-! ## Lemmas about `dedupeDocArray` -/

theorem mem_dedupeDocAux {x : Doc} :
    ∀ {l : List Doc} {seen : List String}, x ∈ dedupeDocAux seen l → x ∈ l := by
  intro l
  induction l with
  | nil => intro seen h; simp [dedupeDocAux] at h
  | cons d ds ih =>
    intro seen h
    by_cases hs : d.unique_id ∈ seen
    · simp only [dedupeDocAux, if_pos hs] at h
      exact List.mem_cons_of_mem _ (ih h)
    · simp only [dedupeDocAux, if_neg hs] at h
      rcases List.mem_cons.mp h with rfl | h'
      · exact List.mem_cons_self _ _
      · exact List.mem_cons_of_mem _ (ih h')

theorem dedupeDocAux_spec : ∀ (l : List Doc) (seen : List String),
    ((dedupeDocAux seen l).map (fun d => d.unique_id)).Nodup ∧
      ∀ x ∈ dedupeDocAux seen l, x.unique_id ∉ seen := by
  intro l
  induction l with
  | nil => intro seen; exact ⟨List.nodup_nil, by simp [dedupeDocAux]⟩
  | cons d ds ih =>
    intro seen
    by_cases hs : d.unique_id ∈ seen
    · simp only [dedupeDocAux, if_pos hs]
      exact ih seen
    · simp only [dedupeDocAux, if_neg hs]
      obtain ⟨hnd, hni⟩ := ih (d.unique_id :: seen)
      refine ⟨?_, ?_⟩
      · rw [List.map_cons]
        refine List.nodup_cons.mpr ⟨?_, hnd⟩
        intro hmem
        rcases List.mem_map.mp hmem with ⟨y, hy, hyid⟩
        refine hni y hy ?_
        rw [hyid]
        exact List.mem_cons_self _ _
      · intro x hx
        rcases List.mem_cons.mp hx with rfl | hx'
        · exact hs
        · exact fun hxs => hni x hx' (List.mem_cons_of_mem _ hxs)

theorem nodup_uid_dedupeDocArray (l : List Doc) :
    ((dedupeDocArray l).map (fun d => d.unique_id)).Nodup :=
  (dedupeDocAux_spec l []).1

theorem mem_dedupeDocArray {x : Doc} {l : List Doc} (h : x ∈ dedupeDocArray l) : x ∈ l :=
  mem_dedupeDocAux h

/-! ## Provenance of index-map entries -/

theorem val_insertAssoc {β : Type} {k k' : String} {l : List β} {b x : β}
    {m : List (String × List β)} (hmem : (k, l) ∈ insertAssoc m k' b) (hx : x ∈ l) :
    (∃ l₀, (k, l₀) ∈ m ∧ x ∈ l₀) ∨ (x = b ∧ k = k') := by
  rcases mem_insertAssoc_inv hmem with h | ⟨l₀, hl₀, hk, hl⟩ | ⟨hk, hl⟩
  · exact Or.inl ⟨l, h, hx⟩
  · subst hl
    rcases List.mem_append.mp hx with h1 | h1
    · exact Or.inl ⟨l₀, hl₀, h1⟩
    · exact Or.inr ⟨by simpa using h1, hk⟩
  · subst hl
    exact Or.inr ⟨by simpa using hx, hk⟩

theorem pushKeys_cons (m : List (String × List Doc)) (k₁ : String) (ks : List String) (d : Doc) :
    pushKeys m (k₁ :: ks) d = pushKeys (insertAssoc m k₁ d) ks d := by
  simp [pushKeys]

theorem val_pushKeys {x : Doc} {k : String} {l : List Doc} :
    ∀ (ks : List String) (m : List (String × List Doc)) (d : Doc),
      (k, l) ∈ pushKeys m ks d → x ∈ l →
        (∃ l₀, (k, l₀) ∈ m ∧ x ∈ l₀) ∨ (x = d ∧ k ∈ ks) := by
  intro ks
  induction ks with
  | nil => intro m d h hx; exact Or.inl ⟨l, h, hx⟩
  | cons k₁ ks ih =>
    intro m d h hx
    rw [pushKeys_cons] at h
    rcases ih (insertAssoc m k₁ d) d h hx with ⟨l₀, hl₀, hx₀⟩ | ⟨hxd, hkk⟩
    · rcases val_insertAssoc hl₀ hx₀ with ⟨l₁, hl₁, hx₁⟩ | ⟨hxd, hkk⟩
      · exact Or.inl ⟨l₁, hl₁, hx₁⟩
      · exact Or.inr ⟨hxd, by simp [hkk]⟩
    · exact Or.inr ⟨hxd, List.mem_cons_of_mem _ hkk⟩

theorem key_pushKeys {k : String} {l : List Doc} :
    ∀ (ks : List String) (m : List (String × List Doc)) (d : Doc),
      (k, l) ∈ pushKeys m ks d → (∃ l₀, (k, l₀) ∈ m) ∨ k ∈ ks := by
  intro ks
  induction ks with
  | nil => intro m d h; exact Or.inl ⟨l, h⟩
  | cons k₁ ks ih =>
    intro m d h
    rw [pushKeys_cons] at h
    rcases ih (insertAssoc m k₁ d) d h with ⟨l₀, hl₀⟩ | hkk
    · rcases mem_insertAssoc_inv hl₀ with h1 | ⟨l₁, hl₁, hk, _⟩ | ⟨hk, _⟩
      · exact Or.inl ⟨l₀, h1⟩
      · exact Or.inl ⟨l₁, hl₁⟩
      · exact Or.inr (by simp [hk])
    · exact Or.inr (List.mem_cons_of_mem _ hkk)

theorem val_indexAux {x : Doc} {k : String} {l : List Doc} {f : Doc → List String} :
    ∀ (ds : List Doc) (m : List (String × List Doc)),
      (k, l) ∈ indexAux f m ds → x ∈ l →
        (∃ l₀, (k, l₀) ∈ m ∧ x ∈ l₀) ∨ (x ∈ ds ∧ k ∈ f x) := by
  intro ds
  induction ds with
  | nil => intro m h hx; exact Or.inl ⟨l, h, hx⟩
  | cons d ds ih =>
    intro m h hx
    simp only [indexAux] at h
    rcases ih _ h hx with ⟨l₀, hl₀, hx₀⟩ | hds
    · rcases val_pushKeys (f d) m d hl₀ hx₀ with ⟨l₁, hl₁, hx₁⟩ | ⟨rfl, hk⟩
      · exact Or.inl ⟨l₁, hl₁, hx₁⟩
      · exact Or.inr ⟨List.mem_cons_self _ _, hk⟩
    · exact Or.inr ⟨List.mem_cons_of_mem _ hds.1, hds.2⟩

theorem key_indexAux {k : String} {l : List Doc} {f : Doc → List String} :
    ∀ (ds : List Doc) (m : List (String × List Doc)),
      (k, l) ∈ indexAux f m ds →
        (∃ l₀, (k, l₀) ∈ m) ∨ ∃ x ∈ ds, k ∈ f x := by
  intro ds
  induction ds with
  | nil => intro m h; exact Or.inl ⟨l, h⟩
  | cons d ds ih =>
    intro m h
    simp only [indexAux] at h
    rcases ih _ h with ⟨l₀, hl₀⟩ | ⟨x, hx, hk⟩
    · rcases key_pushKeys (f d) m d hl₀ with h1 | hk
      · exact Or.inl h1
      · exact Or.inr ⟨d, List.mem_cons_self _ _, hk⟩
    · exact Or.inr ⟨x, List.mem_cons_of_mem _ hx, hk⟩

theorem val_indexMap {x : Doc} {k : String} {l : List Doc} {f : Doc → List String}
    {docs : List Doc} (h : (k, l) ∈ indexMap f docs) (hx : x ∈ l) :
    x ∈ docs ∧ k ∈ f x := by
  rcases val_indexAux docs [] h hx with ⟨l₀, hl₀, _⟩ | hgood
  · simp at hl₀
  · exact hgood

theorem key_indexMap {k : String} {l : List Doc} {f : Doc → List String}
    {docs : List Doc} (h : (k, l) ∈ indexMap f docs) :
    ∃ x ∈ docs, k ∈ f x := by
  rcases key_indexAux docs [] h with ⟨l₀, hl₀⟩ | hgood
  · simp at hl₀
  · exact hgood

/-! ## The code-point string order is total and transitive -/

theorem strLeB_total : ∀ a b : List Char, strLeB a b = true ∨ strLeB b a = true := by
  intro a
  induction a with
  | nil => intro b; exact Or.inl rfl
  | cons x as ih =>
    intro b
    cases b with
    | nil => exact Or.inr rfl
    | cons y bs =>
      by_cases hxy : x.toNat < y.toNat
      · exact Or.inl (by simp [strLeB, hxy])
      · by_cases hyx : y.toNat < x.toNat
        · exact Or.inr (by simp [strLeB, hyx])
        · rcases ih bs with h | h
          · exact Or.inl (by simp [strLeB, hxy, hyx, h])
          · exact Or.inr (by simp [strLeB, hxy, hyx, h])

theorem strLeB_trans :
    ∀ a b c : List Char, strLeB a b = true → strLeB b c = true → strLeB a c = true := by
  intro a
  induction a with
  | nil => intro b c _ _; rfl
  | cons x as ih =>
    intro b c hab hbc
    cases b with
    | nil => simp [strLeB] at hab
    | cons y bs =>
      cases c with
      | nil => simp [strLeB] at hbc
      | cons z cs =>
        simp only [strLeB] at hab hbc ⊢
        split_ifs at hab hbc ⊢ <;>
          first
            | rfl
            | omega
            | exact ih bs cs hab hbc

/-! ## Structure of the assembled corpus -/

theorem assemble_eq (dm : DedupeMaps) (tm : List (String × String)) (ps : List Page) :
    assembleDocuments dm tm ps =
      (dedupFirst (ps.map groupKey)).map
        (fun k => mkDoc dm tm k (ps.filter (fun q => groupKey q == k))) := by
  rw [assembleDocuments, documentMap_eq_grouped, groupedBy, List.map_map]
  rfl

theorem mem_sortPages {x : Page} {l : List Page} : x ∈ sortPages l ↔ x ∈ l :=
  (perm_sortByB _ l).mem_iff

theorem mem_assemble_elim {dm : DedupeMaps} {tm : List (String × String)} {ps : List Page}
    {d : Doc} (hd : d ∈ assembleDocuments dm tm ps) :
    ∃ k ∈ dedupFirst (ps.map groupKey),
      d = mkDoc dm tm k (ps.filter (fun q => groupKey q == k)) := by
  rw [assemble_eq] at hd
  rcases List.mem_map.mp hd with ⟨k, hk, hdk⟩
  exact ⟨k, hk, hdk.symm⟩

theorem mkDoc_unique_id (dm : DedupeMaps) (tm : List (String × String)) (k : String)
    (l : List Page) : (mkDoc dm tm k l).unique_id = k := rfl

theorem mkDoc_pages (dm : DedupeMaps) (tm : List (String × String)) (k : String)
    (l : List Page) : (mkDoc dm tm k l).pages = sortPages l := rfl

/-! ## C7: date normalization is total but returns the trimmed string -/

theorem normalizeDateCore_unrecognized {cs : List Char} (h : recognizedDate cs = false) :
    normalizeDateCore cs = cs := by
  simp only [recognizedDate, Bool.or_eq_false_iff] at h
  obtain ⟨⟨⟨⟨⟨h1, h2⟩, h3⟩, h4⟩, h5⟩, h6⟩ := h
  have e3 : runMatch1 cs = none := by
    revert h3
    cases runMatch1 cs <;> simp
  have e4 : runMatch2 cs = none := by
    revert h4
    cases runMatch2 cs <;> simp
  have e5 : runMatch3 cs = none := by
    revert h5
    cases runMatch3 cs <;> simp
  have e6 : runMatch4 cs = none := by
    revert h6
    cases runMatch4 cs <;> simp
  simp [normalizeDateCore, h1, h2, e3, e4, e5, e6]

/-- C7 counterexample: the non-empty input `" hello "` matches none of
the recognized formats, yet `normalizeDate` does not return it
unchanged — it returns the trimmed string `"hello"`. -/
theorem normalizeDate_passthrough_cx :
    " hello " ≠ "" ∧ recognizedDate (" hello ").data = false ∧
    recognizedDate (jsTrimL (" hello ").data) = false ∧
    normalizeDate " hello " ≠ some " hello " ∧
    normalizeDate " hello " = some "hello" := by decide

/-- C7 (amended): `normalizeDate` is total; on every non-empty input
whose trimmed form matches none of the recognized formats it returns
the trimmed input, so two unparseable dates share a grouping key
exactly when their trimmed forms are textually identical. -/
theorem normalizeDate_passthrough (s : String) (h0 : s ≠ "")
    (hur : recognizedDate (jsTrimL s.data) = false) :
    normalizeDate s = some (trimStr s) ∧
    ∀ t : String, t ≠ "" → recognizedDate (jsTrimL t.data) = false →
      (normalizeDate s = normalizeDate t ↔ trimStr s = trimStr t) := by
  have hs : normalizeDate s = some (trimStr s) := by
    rw [normalizeDate, if_neg h0, normalizeDateCore_unrecognized hur]
    rfl
  refine ⟨hs, ?_⟩
  intro t ht0 htur
  have hts : normalizeDate t = some (trimStr t) := by
    rw [normalizeDate, if_neg ht0, normalizeDateCore_unrecognized htur]
    rfl
  rw [hs, hts]
  exact ⟨fun h => by injection h, fun h => by rw [h]⟩

theorem normalizeDate_passthrough_witness :
    normalizeDate "hello!" = some (trimStr "hello!") ∧
    (normalizeDate "hello!" = normalizeDate "not a date?" ↔
      trimStr "hello!" = trimStr "not a date?") :=
  ⟨(normalizeDate_passthrough "hello!" (by decide) (by decide)).1,
   (normalizeDate_passthrough "hello!" (by decide) (by decide)).2 "not a date?"
     (by decide) (by decide)⟩

/-! ## C8: concrete normalization and formatting equations -/

/-- C8: `normalizeDate "Feb 3, 2010" = "2010-02-03"`, which formats as
`"February 3, 2010"`; `formatDate "2005-00-00" = "2005"`; and
`formatDate "2005-02-15" = "February 15, 2005"`. -/
theorem date_formatting_equations :
    normalizeDate "Feb 3, 2010" = some "2010-02-03" ∧
    formatDate "2010-02-03" = "February 3, 2010" ∧
    formatDate "2005-00-00" = "2005" ∧
    formatDate "2005-02-15" = "February 15, 2005" := by decide

/-! ## C9: the entity canonicalizer contract -/

/-- C9 counterexample: the raw name `"a"` has an entry in the people
mapping (with value `""`), but `applyDedupe` does not return the
mapping's value — the falsy mapped value falls back to the raw name. -/
theorem applyDedupe_cx :
    lookupJs (catMap ⟨[("a", "")], [], []⟩ .people) "a" = some "" ∧
    applyDedupe ⟨[("a", "")], [], []⟩ .people "a" ≠ "" ∧
    applyDedupe ⟨[("a", "")], [], []⟩ .people "a" = "a" := by decide

/-- C9 (amended): `applyDedupe` returns the mapped value when the raw
name is non-empty, has an entry, and the mapped value is non-empty;
in every other case (no entry, empty mapped value, or empty raw name)
it returns the raw name unchanged; with the empty or missing mapping it
is the identity on every name. -/
theorem applyDedupe_contract (dm : DedupeMaps) (cat : EntityCategory) (name v : String) :
    (name ≠ "" → lookupJs (catMap dm cat) name = some v → v ≠ "" →
      applyDedupe dm cat name = v)
    ∧ (lookupJs (catMap dm cat) name = none → applyDedupe dm cat name = name)
    ∧ (lookupJs (catMap dm cat) name = some "" → applyDedupe dm cat name = name)
    ∧ (name = "" → applyDedupe dm cat name = name)
    ∧ applyDedupe emptyMaps cat name = name := by
  refine ⟨?_, ?_, ?_, ?_, ?_⟩
  · intro hn hl hv
    simp [applyDedupe, hn, hl, jsOr, hv]
  · intro hl
    by_cases hn : name = "" <;> simp [applyDedupe, hn, hl, jsOr]
  · intro hl
    by_cases hn : name = "" <;> simp [applyDedupe, hn, hl, jsOr]
  · intro hn
    simp [applyDedupe, hn]
  · by_cases hn : name = "" <;>
      cases cat <;> simp [applyDedupe, hn, emptyMaps, catMap, lookupJs, jsOr]

theorem applyDedupe_contract_witness :
    applyDedupe exMapsJE .people "J. Epstein" = "Jeffrey Epstein" ∧
    applyDedupe ⟨[], [], []⟩ .people "Unmapped Name" = "Unmapped Name" :=
  ⟨(applyDedupe_contract exMapsJE .people "J. Epstein" "Jeffrey Epstein").1
      (by decide) (by decide) (by decide),
   (applyDedupe_contract ⟨[], [], []⟩ .people "Unmapped Name" "").2.1 (by decide)⟩

/-! ## C1: normalized document numbers determine the grouping -/

/-- C1: two loaded pages whose raw document numbers are both present and
normalize to the same key are placed in the same assembled document,
whose `unique_id` is that shared normalized key. -/
theorem docnum_grouping_consistent (dm : DedupeMaps) (tm : List (String × String))
    (ps : List Page) (p q : Page) (a b : String)
    (hp : p ∈ ps) (hq : q ∈ ps)
    (hpa : p.document_number = some a) (hqb : q.document_number = some b)
    (ha : a ≠ "") (hb : b ≠ "")
    (hnorm : normalizeDocNumStr a = normalizeDocNumStr b) :
    ∃ d ∈ assembleDocuments dm tm ps,
      p ∈ d.pages ∧ q ∈ d.pages ∧ d.unique_id = normalizeDocNumStr a := by
  have hgp : groupKey p = normalizeDocNumStr a := by simp [groupKey, hpa, ha]
  have hgq : groupKey q = normalizeDocNumStr a := by simp [groupKey, hqb, hb, hnorm]
  refine ⟨mkDoc dm tm (normalizeDocNumStr a)
      (ps.filter (fun r => groupKey r == normalizeDocNumStr a)), ?_, ?_, ?_, rfl⟩
  · rw [assemble_eq]
    exact List.mem_map.mpr ⟨normalizeDocNumStr a,
      mem_dedupFirst.mpr (List.mem_map.mpr ⟨p, hp, hgp⟩), rfl⟩
  · rw [mkDoc_pages]
    exact mem_sortPages.mpr (List.mem_filter.mpr ⟨hp, by simp [hgp]⟩)
  · rw [mkDoc_pages]
    exact mem_sortPages.mpr (List.mem_filter.mpr ⟨hq, by simp [hgq]⟩)

theorem docnum_grouping_consistent_witness :
    ∃ d ∈ assembleDocuments emptyMaps []
        [{ basePage with filename := "f1", document_number := some "DOC-12 A" },
         { basePage with filename := "f2", document_number := some "doc 12(a" }],
      { basePage with filename := "f1", document_number := some "DOC-12 A" } ∈ d.pages ∧
      { basePage with filename := "f2", document_number := some "doc 12(a" } ∈ d.pages ∧
      d.unique_id = normalizeDocNumStr "DOC-12 A" :=
  docnum_grouping_consistent emptyMaps []
    [{ basePage with filename := "f1", document_number := some "DOC-12 A" },
     { basePage with filename := "f2", document_number := some "doc 12(a" }]
    { basePage with filename := "f1", document_number := some "DOC-12 A" }
    { basePage with filename := "f2", document_number := some "doc 12(a" }
    "DOC-12 A" "doc 12(a"
    (by decide) (by decide) rfl rfl (by decide) (by decide) (by decide)

/-! ## C2: assembly partitions the loaded pages -/

/-- C2: every loaded page lands in exactly one document's pages list
(pages with no truthy document number are grouped under the filename
fallback key), and the page counts over all documents sum to the number
of loaded pages. -/
theorem assembly_partitions (dm : DedupeMaps) (tm : List (String × String)) (ps : List Page) :
    ((assembleDocuments dm tm ps).map (fun d => d.page_count)).sum = ps.length ∧
    (∀ p ∈ ps, ∃! d, d ∈ assembleDocuments dm tm ps ∧ p ∈ d.pages) ∧
    (∀ p ∈ ps, (p.document_number = none ∨ p.document_number = some "") →
      ∃ d ∈ assembleDocuments dm tm ps, p ∈ d.pages ∧ d.unique_id = fallbackKey p) := by
  refine ⟨?_, ?_, ?_⟩
  · rw [assemble_eq, List.map_map]
    have hcong : ∀ k ∈ dedupFirst (ps.map groupKey),
        ((fun d => d.page_count) ∘
          fun k => mkDoc dm tm k (ps.filter (fun q => groupKey q == k))) k =
          (ps.filter (fun q => groupKey q == k)).length := by
      intro k _
      exact (perm_sortByB _ _).length_eq
    rw [List.map_congr_left hcong]
    exact sum_filter_lengths groupKey ps
  · intro p hp
    refine ⟨mkDoc dm tm (groupKey p) (ps.filter (fun r => groupKey r == groupKey p)),
      ⟨?_, ?_⟩, ?_⟩
    · rw [assemble_eq]
      exact List.mem_map.mpr ⟨groupKey p,
        mem_dedupFirst.mpr (List.mem_map.mpr ⟨p, hp, rfl⟩), rfl⟩
    · rw [mkDoc_pages]
      exact mem_sortPages.mpr (List.mem_filter.mpr ⟨hp, by simp⟩)
    · rintro d ⟨hd, hpd⟩
      rcases mem_assemble_elim hd with ⟨k, hk, rfl⟩
      rw [mkDoc_pages] at hpd
      have hpk : p ∈ ps.filter (fun q => groupKey q == k) := mem_sortPages.mp hpd
      have hkey : groupKey p = k := by
        have := (List.mem_filter.mp hpk).2
        simpa using this
      subst hkey
      rfl
  · intro p hp hfalsy
    have hgp : groupKey p = fallbackKey p := by
      rcases hfalsy with h | h <;> simp [groupKey, h]
    refine ⟨mkDoc dm tm (groupKey p) (ps.filter (fun r => groupKey r == groupKey p)),
      ?_, ?_, ?_⟩
    · rw [assemble_eq]
      exact List.mem_map.mpr ⟨groupKey p,
        mem_dedupFirst.mpr (List.mem_map.mpr ⟨p, hp, rfl⟩), rfl⟩
    · rw [mkDoc_pages]
      exact mem_sortPages.mpr (List.mem_filter.mpr ⟨hp, by simp⟩)
    · rw [mkDoc_unique_id]
      exact hgp

theorem assembly_partitions_witness :
    ((assembleDocuments emptyMaps []
        [{ basePage with filename := "x1", document_number := some "X" },
         { basePage with filename := "scan_042" }]).map (fun d => d.page_count)).sum = 2 ∧
    (∃! d, d ∈ assembleDocuments emptyMaps []
        [{ basePage with filename := "x1", document_number := some "X" },
         { basePage with filename := "scan_042" }] ∧
      { basePage with filename := "scan_042" } ∈ d.pages) ∧
    (∃ d ∈ assembleDocuments emptyMaps []
        [{ basePage with filename := "x1", document_number := some "X" },
         { basePage with filename := "scan_042" }],
      { basePage with filename := "scan_042" } ∈ d.pages ∧ d.unique_id = "scan-042") :=
  ⟨(assembly_partitions emptyMaps [] _).1,
   (assembly_partitions emptyMaps [] _).2.1 _ (by decide),
   (assembly_partitions emptyMaps [] _).2.2 _ (by decide) (Or.inl rfl)⟩

/-! ## C3: page ordering within a document -/

/-- C3: within every assembled document the pages are sorted ascending
by the key `parseInt(page_number) || 0`, and for every key value the
pages carrying it appear in their relative input order (stability). -/
theorem pages_sorted_stably (dm : DedupeMaps) (tm : List (String × String))
    (ps : List Page) (d : Doc) (hd : d ∈ assembleDocuments dm tm ps) :
    d.pages.Pairwise (fun x y => pageSortKey x ≤ pageSortKey y) ∧
    ∀ v : Int, d.pages.filter (fun p => pageSortKey p == v) =
      (ps.filter (fun p => groupKey p == d.unique_id)).filter
        (fun p => pageSortKey p == v) := by
  rcases mem_assemble_elim hd with ⟨k, hk, rfl⟩
  rw [mkDoc_pages, mkDoc_unique_id]
  exact ⟨sorted_sortPages _, fun v => filter_sortPages v _⟩

theorem pages_sorted_stably_witness :
    ((assembleDocuments emptyMaps [] [exPageSortA, exPageSortB]).getD 0 baseDoc).pages.Pairwise
      (fun x y => pageSortKey x ≤ pageSortKey y) ∧
    ((assembleDocuments emptyMaps [] [exPageSortA, exPageSortB]).getD 0 baseDoc).pages.filter
        (fun p => pageSortKey p == 1) =
      ([exPageSortA, exPageSortB].filter (fun p => groupKey p ==
          ((assembleDocuments emptyMaps [] [exPageSortA, exPageSortB]).getD 0
            baseDoc).unique_id)).filter (fun p => pageSortKey p == 1) :=
  ⟨(pages_sorted_stably emptyMaps [] [exPageSortA, exPageSortB] _ (by decide)).1,
   (pages_sorted_stably emptyMaps [] [exPageSortA, exPageSortB] _ (by decide)).2 1⟩

/-! ## C4: per-document entity sets -/

theorem dedup_canon_toFinset (f : Page → List String) (g : String → String)
    {qs S : List Page} (hq : List.Perm qs S) :
    (dedupFirst ((dedupFirst (S.flatMap f)).map g)).toFinset =
      ((qs.flatMap f).map g).toFinset := by
  ext a
  simp only [List.mem_toFinset, mem_dedupFirst, List.mem_map, List.mem_flatMap]
  constructor
  · rintro ⟨x, ⟨p, hp, hx⟩, hg⟩
    exact ⟨x, ⟨p, hq.mem_iff.mpr hp, hx⟩, hg⟩
  · rintro ⟨x, ⟨p, hp, hx⟩, hg⟩
    exact ⟨x, ⟨p, hq.mem_iff.mp hp, hx⟩, hg⟩

theorem mkDoc_people (dm : DedupeMaps) (tm : List (String × String)) (k : String)
    (l : List Page) :
    (mkDoc dm tm k l).people =
      dedupFirst ((dedupFirst ((sortPages l).flatMap (fun p => p.people))).map
        (applyDedupe dm .people)) := rfl

theorem mkDoc_organizations (dm : DedupeMaps) (tm : List (String × String)) (k : String)
    (l : List Page) :
    (mkDoc dm tm k l).organizations =
      dedupFirst ((dedupFirst ((sortPages l).flatMap (fun p => p.organizations))).map
        (applyDedupe dm .organizations)) := rfl

theorem mkDoc_locations (dm : DedupeMaps) (tm : List (String × String)) (k : String)
    (l : List Page) :
    (mkDoc dm tm k l).locations =
      dedupFirst ((dedupFirst ((sortPages l).flatMap (fun p => p.locations))).map
        (applyDedupe dm .locations)) := rfl

/-- C4: each assembled document's stored entity list (people,
organizations, locations) is duplicate-free and equals, as a set, the
canonicalized image of the union of its pages' raw entity lists, for any
processing order of the pages; the `"J. Epstein"` scenario yields exactly
`["Jeffrey Epstein"]`. -/
theorem entities_deduplicated (dm : DedupeMaps) (tm : List (String × String))
    (ps : List Page) (d : Doc) (hd : d ∈ assembleDocuments dm tm ps) :
    (d.people.Nodup ∧ ∀ qs : List Page, List.Perm qs d.pages →
        d.people.toFinset =
          ((qs.flatMap (fun p => p.people)).map (applyDedupe dm .people)).toFinset) ∧
    (d.organizations.Nodup ∧ ∀ qs : List Page, List.Perm qs d.pages →
        d.organizations.toFinset =
          ((qs.flatMap (fun p => p.organizations)).map
            (applyDedupe dm .organizations)).toFinset) ∧
    (d.locations.Nodup ∧ ∀ qs : List Page, List.Perm qs d.pages →
        d.locations.toFinset =
          ((qs.flatMap (fun p => p.locations)).map (applyDedupe dm .locations)).toFinset) ∧
    (assembleDocuments exMapsJE [] [exPageJE]).map (fun x => x.people) =
      [["Jeffrey Epstein"]] := by
  rcases mem_assemble_elim hd with ⟨k, hk, rfl⟩
  refine ⟨⟨?_, ?_⟩, ⟨?_, ?_⟩, ⟨?_, ?_⟩, by decide⟩
  · rw [mkDoc_people]; exact nodup_dedupFirst _
  · intro qs hqs
    rw [mkDoc_people]
    exact dedup_canon_toFinset (fun p => p.people) (applyDedupe dm .people) hqs
  · rw [mkDoc_organizations]; exact nodup_dedupFirst _
  · intro qs hqs
    rw [mkDoc_organizations]
    exact dedup_canon_toFinset (fun p => p.organizations) (applyDedupe dm .organizations) hqs
  · rw [mkDoc_locations]; exact nodup_dedupFirst _
  · intro qs hqs
    rw [mkDoc_locations]
    exact dedup_canon_toFinset (fun p => p.locations) (applyDedupe dm .locations) hqs

theorem entities_deduplicated_witness :
    ((assembleDocuments exMapsJE [] [exPageJE]).getD 0 baseDoc).people.Nodup ∧
    ((assembleDocuments exMapsJE [] [exPageJE]).getD 0 baseDoc).people.toFinset =
      (([exPageJE].flatMap (fun p => p.people)).map (applyDedupe exMapsJE .people)).toFinset :=
  ⟨(entities_deduplicated exMapsJE [] [exPageJE] _ (by decide)).1.1,
   (entities_deduplicated exMapsJE [] [exPageJE] _ (by decide)).1.2 [exPageJE] (by decide)⟩

/-! ## C5: index counts are distinct-document counts -/

theorem count_dedup_of (ds : List Doc) :
    (dedupeDocArray ds).length =
      (((dedupeDocArray ds).map (fun x => x.unique_id)).dedup).length ∧
    ((dedupeDocArray ds).map (fun x => x.unique_id)).Nodup := by
  have hnd := nodup_uid_dedupeDocArray ds
  exact ⟨by rw [List.dedup_eq_self.mpr hnd, List.length_map], hnd⟩

/-- C5: in every bucket of every index, `count` equals the number of
distinct `unique_id`s in the bucket's `docs` list, and `docs` holds each
document at most once. -/
theorem index_counts_distinct (dm : DedupeMaps) (tm : List (String × String))
    (docs : List Doc) :
    (∀ b ∈ (buildIndices dm tm docs).people,
      b.count = ((b.docs.map (fun x => x.unique_id)).dedup).length ∧
      (b.docs.map (fun x => x.unique_id)).Nodup) ∧
    (∀ b ∈ (buildIndices dm tm docs).organizations,
      b.count = ((b.docs.map (fun x => x.unique_id)).dedup).length ∧
      (b.docs.map (fun x => x.unique_id)).Nodup) ∧
    (∀ b ∈ (buildIndices dm tm docs).locations,
      b.count = ((b.docs.map (fun x => x.unique_id)).dedup).length ∧
      (b.docs.map (fun x => x.unique_id)).Nodup) ∧
    (∀ b ∈ (buildIndices dm tm docs).dates,
      b.count = ((b.docs.map (fun x => x.unique_id)).dedup).length ∧
      (b.docs.map (fun x => x.unique_id)).Nodup) ∧
    (∀ b ∈ (buildIndices dm tm docs).documentTypes,
      b.count = ((b.docs.map (fun x => x.unique_id)).dedup).length ∧
      (b.docs.map (fun x => x.unique_id)).Nodup) := by
  refine ⟨?_, ?_, ?_, ?_, ?_⟩ <;>
    · intro b hb
      rcases List.mem_map.mp ((perm_sortByB _ _).mem_iff.mp hb) with ⟨e, _, rfl⟩
      exact count_dedup_of e.2

theorem index_counts_distinct_witness :
    ((buildIndices emptyMaps [] [exDocPeople]).people.getD 0 baseBucket).count =
      ((((buildIndices emptyMaps [] [exDocPeople]).people.getD 0 baseBucket).docs.map
        (fun x => x.unique_id)).dedup).length ∧
    (((buildIndices emptyMaps [] [exDocPeople]).people.getD 0 baseBucket).docs.map
      (fun x => x.unique_id)).Nodup :=
  (index_counts_distinct emptyMaps [] [exDocPeople]).1 _ (by decide)

/-! ## C6: sort orders of the five indices -/

theorem pairwise_sortByCountDesc (l : List Bucket) :
    (sortByCountDesc l).Pairwise (fun x y => y.count ≤ x.count) := by
  have h := pairwise_sortByB (r := fun a b => decide (b.count ≤ a.count))
    (fun a b => by
      rcases le_total b.count a.count with h | h
      · exact Or.inl (decide_eq_true h)
      · exact Or.inr (decide_eq_true h))
    (fun a b c hab hbc =>
      decide_eq_true (le_trans (of_decide_eq_true hbc) (of_decide_eq_true hab)))
    l
  exact h.imp (fun hxy => of_decide_eq_true hxy)

theorem pairwise_sortByDateDesc (l : List DateBucket) :
    (sortByDateDesc l).Pairwise
      (fun x y => strLe y.normalizedDate x.normalizedDate = true) :=
  pairwise_sortByB (r := fun a b : DateBucket => strLe b.normalizedDate a.normalizedDate)
    (fun a b => strLeB_total b.normalizedDate.data a.normalizedDate.data)
    (fun a b c hab hbc => strLeB_trans c.normalizedDate.data b.normalizedDate.data
      a.normalizedDate.data hbc hab)
    l

/-- C6: the dates index — and only it — is sorted by descending
normalized date key under lexicographic comparison ("2024-05-01" before
"2023-11-02"), while every other index is sorted by descending document
count. -/
theorem indices_sort_orders (dm : DedupeMaps) (tm : List (String × String))
    (docs : List Doc) :
    (buildIndices dm tm docs).dates.Pairwise
      (fun x y => strLe y.normalizedDate x.normalizedDate = true) ∧
    (buildIndices dm tm docs).people.Pairwise (fun x y => y.count ≤ x.count) ∧
    (buildIndices dm tm docs).organizations.Pairwise (fun x y => y.count ≤ x.count) ∧
    (buildIndices dm tm docs).locations.Pairwise (fun x y => y.count ≤ x.count) ∧
    (buildIndices dm tm docs).documentTypes.Pairwise (fun x y => y.count ≤ x.count) ∧
    (buildIndices emptyMaps [] [exDocNov, exDocMay]).dates.map
      (fun b => b.normalizedDate) = ["2024-05-01", "2023-11-02"] :=
  ⟨pairwise_sortByDateDesc _, pairwise_sortByCountDesc _, pairwise_sortByCountDesc _,
   pairwise_sortByCountDesc _, pairwise_sortByCountDesc _, by decide⟩

/-! ## C10: falsy date normalizations are skipped by the dates index -/

theorem mem_dateKeys {k : String} {d : Doc} :
    k ∈ dateKeys d ↔ ∃ s ∈ d.dates, normalizeDate s = some k ∧ k ≠ "" := by
  simp only [dateKeys, List.mem_filterMap]
  constructor
  · rintro ⟨s, hs, hf⟩
    refine ⟨s, hs, ?_⟩
    cases hn : normalizeDate s with
    | none => simp [hn] at hf
    | some n =>
      simp only [hn] at hf
      by_cases hne : n = ""
      · simp [hne] at hf
      · simp only [if_neg hne, Option.some.injEq] at hf
        rw [← hf]
        exact ⟨rfl, hne⟩
  · rintro ⟨s, hs, hn, hk⟩
    refine ⟨s, hs, ?_⟩
    simp [hn, hk]

/-- C10: a date entity whose normalization is falsy is silently skipped
by the dates index: every document in a dates bucket got there through a
truthy normalized date, every bucket key is a truthy normalization of
some document's date entity, and a document all of whose date entities
are empty strings appears in no dates bucket. -/
theorem falsy_dates_skipped (dm : DedupeMaps) (tm : List (String × String))
    (docs : List Doc) :
    (∀ d : Doc, (∀ s ∈ d.dates, s = "") →
      ∀ b ∈ (buildIndices dm tm docs).dates, d ∉ b.docs) ∧
    (∀ b ∈ (buildIndices dm tm docs).dates,
      b.normalizedDate ≠ "" ∧
      ∃ x ∈ docs, ∃ s ∈ x.dates, normalizeDate s = some b.normalizedDate) := by
  have hbuckets : ∀ b ∈ (buildIndices dm tm docs).dates,
      ∃ e ∈ indexMap dateKeys docs, b = mkDateBucket e := by
    intro b hb
    have hb' : b ∈ (indexMap dateKeys docs).map mkDateBucket :=
      (perm_sortByB _ _).mem_iff.mp hb
    rcases List.mem_map.mp hb' with ⟨e, he, hbe⟩
    exact ⟨e, he, hbe.symm⟩
  constructor
  · intro d hall b hb
    rcases hbuckets b hb with ⟨e, he, rfl⟩
    obtain ⟨e1, e2⟩ := e
    intro hmem
    have hd2 : d ∈ e2 := mem_dedupeDocArray hmem
    have hsrc := val_indexMap he hd2
    rcases mem_dateKeys.mp hsrc.2 with ⟨s, hs, hn, _⟩
    rw [hall s hs] at hn
    simp [normalizeDate] at hn
  · intro b hb
    rcases hbuckets b hb with ⟨e, he, rfl⟩
    obtain ⟨e1, e2⟩ := e
    rcases key_indexMap he with ⟨x, hx, hk⟩
    rcases mem_dateKeys.mp hk with ⟨s, hs, hn, hne⟩
    exact ⟨hne, x, hx, s, hs, hn⟩

theorem falsy_dates_skipped_witness :
    exDocEmptyDates ∉ ((buildIndices emptyMaps [] [exDocEmptyDates, exDocMay]).dates.getD 0
      baseDateBucket).docs ∧
    ((buildIndices emptyMaps [] [exDocEmptyDates, exDocMay]).dates.getD 0
      baseDateBucket).normalizedDate ≠ "" :=
  ⟨(falsy_dates_skipped emptyMaps [] [exDocEmptyDates, exDocMay]).1 exDocEmptyDates
      (by decide) _ (by decide),
   ((falsy_dates_skipped emptyMaps [] [exDocEmptyDates, exDocMay]).2 _ (by decide)).1⟩

end EpsteinDocs
